import Mathlib

/-!
# Verification of the monke.finance transaction-ingestion / FIFO cost-basis core

Shallow embedding of the FIFO cost-basis calculator
(`backend/src/services/costBasisCalculator.ts`, class `FIFOCostBasisCalculator`)
and the transaction processor
(`backend/src/services/transactionProcessor.ts`, class `TransactionProcessor`).

Modelling conventions:
* Asset amounts and prices are rationals (`ℚ`).  The source keeps amounts in
  `Big` (arbitrary-precision decimal) — a subring of `ℚ` — and prices in IEEE
  doubles; all claim-level arithmetic is modelled exactly.
* Database rows become structures, tables become lists, SQL reads become list
  traversals that mirror the `WHERE` / `ORDER BY` clauses of the source.
* The `cost_basis` FIFO query
  (`WHERE holder_id = $1 AND remaining_amount > 0 ORDER BY purchase_timestamp
  ASC, created_at ASC`) is modelled by sorting the holder's lots by
  `(purchaseTimestamp, seq)` where `seq` is the insertion (creation) index.
-/

namespace Monke

/-- A `cost_basis` row (one purchase lot).  `seq` models `created_at` insertion
order, used by the FIFO query as tie-break. -/
structure Lot where
  remainingAmount : ℚ
  originalAmount : ℚ
  pricePerToken : ℚ
  purchaseTimestamp : ℤ
  seq : ℕ
deriving DecidableEq, Repr

/-- `ORDER BY purchase_timestamp ASC, created_at ASC` as a Boolean total order. -/
def lotLE (a b : Lot) : Bool :=
  a.purchaseTimestamp < b.purchaseTimestamp ∨
    (a.purchaseTimestamp = b.purchaseTimestamp ∧ a.seq ≤ b.seq)

/-- The FIFO view of a holder's lots: sorted oldest first, creation order as
tie-break (the `ORDER BY` of `processSale`'s query). -/
def fifoOrdered (lots : List Lot) : List Lot :=
  lots.mergeSort lotLE

/-- Sum of `remaining_amount` over a list of lots. -/
def sumRem (lots : List Lot) : ℚ :=
  (lots.map (·.remainingAmount)).sum

/-- Lots the calculator's queries see: `WHERE remaining_amount > 0`. -/
def openLots (lots : List Lot) : List Lot :=
  lots.filter (fun l => decide (0 < l.remainingAmount))

/-- The `for (const entry of costBasisEntries)` loop of
`FIFOCostBasisCalculator.processSale`: walks the FIFO-ordered lots, consuming
`useAmount = min(remainingSaleAmount, availableAmount)` from each lot with
`remaining_amount > 0`, accumulating `useAmount * (salePrice - costBasis)`
into the realized PnL, and breaking once the outstanding sale amount is ≤ 0.
Rows with `remaining_amount ≤ 0` are excluded by the SQL `WHERE` clause, hence
skipped unchanged.  Returns (updated lots, realized PnL, outstanding sale
amount left unmatched). -/
def consumeLots (salePrice : ℚ) : ℚ → List Lot → List Lot × ℚ × ℚ
  | rem, [] => ([], 0, rem)
  | rem, l :: ls =>
    if rem ≤ 0 then (l :: ls, 0, rem)
    else if l.remainingAmount ≤ 0 then
      let r := consumeLots salePrice rem ls
      (l :: r.1, r.2.1, r.2.2)
    else
      let used := min rem l.remainingAmount
      let r := consumeLots salePrice (rem - used) ls
      ({ l with remainingAmount := l.remainingAmount - used } :: r.1,
        used * (salePrice - l.pricePerToken) + r.2.1, r.2.2)

/-- Result of `FIFOCostBasisCalculator.processSale`: the holder's lots after
the sale, the returned total realized PnL, and whether a warning was logged
(no cost-basis entries found, or sale amount exceeding available lots). -/
structure SaleResult where
  lots : List Lot
  realizedPnl : ℚ
  warned : Bool
deriving DecidableEq, Repr

/-- `FIFOCostBasisCalculator.processSale` on the FIFO-ordered lots of a
holder.  If no lot has `remaining_amount > 0` the method warns, rolls back and
returns 0 leaving the lots untouched; otherwise it runs the FIFO loop and
warns when the outstanding sale amount is still positive afterwards. -/
def processSale (lots : List Lot) (saleAmount salePrice : ℚ) : SaleResult :=
  if openLots lots = [] then
    ⟨lots, 0, true⟩
  else
    let r := consumeLots salePrice saleAmount lots
    ⟨r.1, r.2.1, decide (0 < r.2.2)⟩

/-- `FIFOCostBasisCalculator.getTotalCostBasis`:
`SUM(remaining_amount * price_per_token)` over lots with
`remaining_amount > 0` (`NULL` sum reads as 0). -/
def totalCostBasis (lots : List Lot) : ℚ :=
  ((openLots lots).map (fun l => l.remainingAmount * l.pricePerToken)).sum

/-- Total open amount: `SUM(remaining_amount)` over lots with
`remaining_amount > 0`. -/
def totalOpenAmount (lots : List Lot) : ℚ :=
  ((openLots lots).map (·.remainingAmount)).sum

/-- `FIFOCostBasisCalculator.getWeightedAverageCostBasis`: total cost divided
by total open amount, 0 when the denominator is 0 (the explicit
`if (totalAmount === 0) return 0` guard). -/
def getWeightedAverageCostBasis (lots : List Lot) : ℚ :=
  let totalCost := totalCostBasis lots
  let totalAmount := totalOpenAmount lots
  if totalAmount = 0 then 0 else totalCost / totalAmount

/-- Result record of `FIFOCostBasisCalculator.getUnrealizedPnL`. -/
structure UnrealizedResult where
  unrealizedPnl : ℚ
  totalAmount : ℚ
  averageCostBasis : ℚ
deriving DecidableEq, Repr

/-- `FIFOCostBasisCalculator.getUnrealizedPnL`: zero-valued result when the
total open amount is 0, otherwise current value minus total cost basis. -/
def getUnrealizedPnL (lots : List Lot) (currentPrice : ℚ) : UnrealizedResult :=
  let totalAmount := totalOpenAmount lots
  let totalCost := totalCostBasis lots
  if totalAmount = 0 then
    ⟨0, 0, 0⟩
  else
    ⟨totalAmount * currentPrice - totalCost, totalAmount, totalCost / totalAmount⟩

/-- Modelled from the spec (§4.3 `consumeSale`), for comparison with
`consumeLots`: the per-lot consumed amounts of a FIFO sale, defined by the
spec's words "used = min(remaining sale amount, lot.remainingAmount)" applied
to the sequence of remaining amounts. -/
def specFifoUsed (saleAmount : ℚ) : List ℚ → List ℚ
  | [] => []
  | r :: rs => min saleAmount r :: specFifoUsed (saleAmount - min saleAmount r) rs

/-! ## Transaction processor (`transactionProcessor.ts`) -/

/-- `TokenTransaction.transactionType`. -/
inductive TxType where
  | buy
  | sell
  | transfer
deriving DecidableEq, Repr

/-- An inbound `TokenTransaction` event from the feed.  Signatures and
addresses are abstracted to naturals. -/
structure TokenTransaction where
  signature : ℕ
  tokenAddress : ℕ
  walletAddress : ℕ
  txType : TxType
  amount : ℚ
  pricePerToken : ℚ
  blockTime : ℤ
deriving DecidableEq, Repr

/-- A committed row of the `transactions` table. -/
structure TxRow where
  id : ℕ
  tokenId : ℕ
  signature : ℕ
  walletAddress : ℕ
  txType : TxType
  amount : ℚ
  pricePerToken : ℚ
deriving DecidableEq, Repr

/-- A row of the `holders` table (the fields the processor reads/writes). -/
structure HolderRow where
  id : ℕ
  tokenId : ℕ
  walletAddress : ℕ
  currentBalance : ℚ
  totalBought : ℚ
  totalSold : ℚ
  averageBuyPrice : ℚ
  realizedPnl : ℚ
  isActive : Bool
deriving DecidableEq, Repr

/-- A fresh holder row, as inserted by `updateHolderPosition` when no row for
`(tokenId, walletAddress)` exists (all numeric columns default to 0). -/
def newHolderRow (id tokenId wallet : ℕ) : HolderRow :=
  ⟨id, tokenId, wallet, 0, 0, 0, 0, 0, false⟩

/-- `TransactionProcessor.updatePositionForTransaction` together with the
cost-basis calls it makes (`addPurchase` / `processSale` /
`getTotalCostBasis`), restricted to one holder.  `h` is the holder row,
`lots` its `cost_basis` rows, `newSeq` the creation index a lot inserted by
`addPurchase` would get.  Buys add to balance/totalBought and append a lot;
sells subtract from balance, add to totalSold and run the FIFO sale;
transfers only add the signed amount to the balance.  Afterwards the average
buy price is recomputed as `getTotalCostBasis / totalBought` when
`totalBought > 0` (else 0) and `is_active` is recomputed as `balance > 0`. -/
def updatePositionForTransaction (h : HolderRow) (lots : List Lot)
    (e : TokenTransaction) (newSeq : ℕ) : HolderRow × List Lot :=
  match e.txType with
  | .buy =>
    let newBalance := h.currentBalance + e.amount
    let newTotalBought := h.totalBought + e.amount
    let newLots := lots ++ [⟨e.amount, e.amount, e.pricePerToken, e.blockTime, newSeq⟩]
    let newAvg := if 0 < newTotalBought then totalCostBasis newLots / newTotalBought else 0
    ({ h with
        currentBalance := newBalance
        totalBought := newTotalBought
        averageBuyPrice := newAvg
        isActive := decide (0 < newBalance) }, newLots)
  | .sell =>
    let newBalance := h.currentBalance - e.amount
    let newTotalSold := h.totalSold + e.amount
    let r := processSale (fifoOrdered lots) e.amount e.pricePerToken
    let newAvg := if 0 < h.totalBought then totalCostBasis r.lots / h.totalBought else 0
    ({ h with
        currentBalance := newBalance
        totalSold := newTotalSold
        realizedPnl := h.realizedPnl + r.realizedPnl
        averageBuyPrice := newAvg
        isActive := decide (0 < newBalance) }, r.lots)
  | .transfer =>
    let newBalance := h.currentBalance + e.amount
    let newAvg := if 0 < h.totalBought then totalCostBasis lots / h.totalBought else 0
    ({ h with
        currentBalance := newBalance
        averageBuyPrice := newAvg
        isActive := decide (0 < newBalance) }, lots)

/-- Committed database state. -/
structure DBState where
  tokens : List (ℕ × ℕ)
  transactions : List TxRow
  holders : List HolderRow
  lots : List (ℕ × Lot)
  nextId : ℕ
deriving DecidableEq, Repr

/-- The committed `cost_basis` rows of one holder, in creation order. -/
def holderLotsOf (s : DBState) (hid : ℕ) : List Lot :=
  (s.lots.filter (fun r => r.1 = hid)).map (·.2)

/-- Write the post-sale lots of holder `hid` back into the global table.  The
source updates each consumed `cost_basis` row in place by `id`; here each
row of holder `hid` is replaced by the row with the same creation index
(`seq`) in the updated per-holder list. -/
def writeBackLots (glob : List (ℕ × Lot)) (hid : ℕ) (updated : List Lot) :
    List (ℕ × Lot) :=
  glob.map (fun r =>
    if r.1 = hid then (r.1, ((updated.find? (fun l => l.seq = r.2.seq)).getD r.2))
    else r)

/-- `TransactionProcessor.processTransaction`.

The source opens one SQL transaction (`BEGIN` … `COMMIT`/`ROLLBACK`) on a
dedicated client for: the duplicate-signature check, `ensureTokenExists`, the
`transactions` insert, the holder select/insert, and the holder `UPDATE`.
The cost-basis calls it makes in between (`addPurchase`, `processSale`,
`getTotalCostBasis`) run on *separate* pool connections — `addPurchase` in
autocommit, `processSale` in its own `BEGIN`/`COMMIT` — so their effects
commit independently of the enclosing transaction.

`failHolderUpdate` injects a persistence failure at the final holder
`UPDATE`: the enclosing transaction is rolled back (its pending token /
transaction-row / holder writes are discarded) and the error is rethrown,
but the already-committed cost-basis mutation survives.  Returns the
committed state and whether an error was (re)thrown. -/
def processTransaction (s : DBState) (e : TokenTransaction)
    (failHolderUpdate : Bool) : DBState × Bool :=
  if s.transactions.any (fun t => t.signature = e.signature) then
    (s, false)
  else
    let (tokenId, tokens1, n1) :=
      match s.tokens.find? (fun t => t.2 = e.tokenAddress) with
      | some t => (t.1, s.tokens, s.nextId)
      | none => (s.nextId, s.tokens ++ [(s.nextId, e.tokenAddress)], s.nextId + 1)
    let txId := n1
    let txRow : TxRow :=
      ⟨txId, tokenId, e.signature, e.walletAddress, e.txType, e.amount, e.pricePerToken⟩
    let (holder, holders1, n2) :=
      match s.holders.find? (fun h => h.tokenId = tokenId ∧ h.walletAddress = e.walletAddress) with
      | some h => (h, s.holders, txId + 1)
      | none => (newHolderRow (txId + 1) tokenId e.walletAddress,
          s.holders ++ [newHolderRow (txId + 1) tokenId e.walletAddress], txId + 2)
    let hLots := holderLotsOf s holder.id
    let (holder1, hLots1) := updatePositionForTransaction holder hLots e s.lots.length
    -- cost-basis mutations are committed immediately (separate connections)
    let lots1 :=
      match e.txType with
      | .buy => s.lots ++ [(holder.id, ⟨e.amount, e.amount, e.pricePerToken, e.blockTime, s.lots.length⟩)]
      | .sell => writeBackLots s.lots holder.id hLots1
      | .transfer => s.lots
    if failHolderUpdate then
      ({ s with lots := lots1 }, true)
    else
      ({ tokens := tokens1,
         transactions := s.transactions ++ [txRow],
         holders := (holders1.map (fun h => if h.id = holder.id then holder1 else h)),
         lots := lots1,
         nextId := n2 }, false)

/-- `TransactionProcessor.processQueue`'s drain loop: repeatedly `shift` the
head and apply it; `ok` abstracts whether `processTransaction` succeeds or
throws on an item.  The `try`/`catch` wraps the *whole* `while` loop, so the
first throw ends the drain: the thrown item has already been shifted off, the
items behind it stay in the queue.  Returns (items shifted during this drain,
queue contents when the drain ends). -/
def drainQueue {α : Type} (ok : α → Bool) : List α → List α × List α
  | [] => ([], [])
  | t :: rest =>
    if ok t then
      let r := drainQueue ok rest
      (t :: r.1, r.2)
    else
      ([t], rest)

/-! ## Analytics: profit/loss zones (`calculateProfitLossZones`) -/

/-- One row of the zones query: an active holder with positive balance,
together with its `COALESCE(SUM(ra*p)/NULLIF(SUM(ra),0), 0)` average cost
basis over open lots. -/
structure ZoneRow where
  averageCostBasis : ℚ
  currentBalance : ℚ
deriving DecidableEq, Repr

/-- Zone classification of `calculateProfitLossZones`'s loop body. -/
inductive Zone where
  | profit
  | loss
  | breakEven
deriving DecidableEq, Repr

/-- The classification applied to each holder row: holders with
`averageCostBasis == 0` are break-even; otherwise
`pct = (currentPrice − avg) / avg` is compared strictly against the
tolerance (`breakEvenTolerance = 0.01`). -/
def classifyZone (tol currentPrice avg : ℚ) : Zone :=
  if avg = 0 then .breakEven
  else
    let pct := (currentPrice - avg) / avg
    if tol < pct then .profit
    else if pct < -tol then .loss
    else .breakEven

/-- Aggregate result of `calculateProfitLossZones`. -/
structure ZonesResult where
  profitHolders : ℕ
  lossHolders : ℕ
  breakEvenHolders : ℕ
  totalHolders : ℕ
  profitAmountUSD : ℚ
  lossAmountUSD : ℚ
  breakEvenAmountUSD : ℚ
deriving DecidableEq, Repr

/-- The body of `calculateProfitLossZones`'s loop: the row adds 1 to its
zone's holder count and `currentBalance * currentPrice` to its zone's USD
amount. -/
def zoneStep (currentPrice : ℚ) (acc : ZonesResult) (row : ZoneRow) : ZonesResult :=
  let usd := row.currentBalance * currentPrice
  match classifyZone (1/100) currentPrice row.averageCostBasis with
  | .profit => { acc with
      profitHolders := acc.profitHolders + 1
      profitAmountUSD := acc.profitAmountUSD + usd }
  | .loss => { acc with
      lossHolders := acc.lossHolders + 1
      lossAmountUSD := acc.lossAmountUSD + usd }
  | .breakEven => { acc with
      breakEvenHolders := acc.breakEvenHolders + 1
      breakEvenAmountUSD := acc.breakEvenAmountUSD + usd }

/-- The accumulation loop of `calculateProfitLossZones` over the holder rows,
with `breakEvenTolerance = 1/100` and `totalHolders` the row count. -/
def calculateProfitLossZones (rows : List ZoneRow) (currentPrice : ℚ) : ZonesResult :=
  rows.foldl (zoneStep currentPrice) ⟨0, 0, 0, rows.length, 0, 0, 0⟩

/-! ## Analytics: price-level clustering (`getHolderPriceLevels`) -/

/-- A `cost_basis` row joined to its holder, as seen by the clustering query
(`token_id` fixed): holder id, lot price and remaining amount. -/
structure CBLot where
  holderId : ℕ
  price : ℚ
  remaining : ℚ
deriving DecidableEq, Repr

/-- The `GROUP BY cb.price_per_token` output row: a distinct price with
`SUM(remaining_amount)` and `COUNT(DISTINCT holder_id)`. -/
structure CBRow where
  price : ℚ
  amount : ℚ
  holderCount : ℕ
deriving DecidableEq, Repr

/-- The distinct lot prices of rows with `remaining_amount > 0`, in ascending
order (`ORDER BY cb.price_per_token ASC`). -/
def distinctPrices (lots : List CBLot) : List ℚ :=
  (((lots.filter (fun l => decide (0 < l.remaining))).map (·.price)).dedup).mergeSort
    (fun a b => decide (a ≤ b))

/-- The aggregates of one distinct price. -/
def rowForPrice (lots : List CBLot) (p : ℚ) : CBRow :=
  let here := lots.filter (fun l => decide (0 < l.remaining) && decide (l.price = p))
  ⟨p, (here.map (·.remaining)).sum, ((here.map (·.holderId)).dedup).length⟩

/-- The grouped, ascending-ordered result set of the clustering query. -/
def sqlPriceRows (lots : List CBLot) : List CBRow :=
  (distinctPrices lots).map (rowForPrice lots)

/-- One entry of `groupedData` / of the returned price levels.  `key` is the
`Map` key (the first price that opened the bucket), `priceLevel` the stored
representative price. -/
structure Bucket where
  key : ℚ
  priceLevel : ℚ
  totalAmount : ℚ
  holderCount : ℕ
deriving DecidableEq, Repr

/-- The `percentDiff <= priceRangePercent` test of the grouping loop:
`|price − existingPrice| / existingPrice * 100 ≤ band`.  In the source a zero
`existingPrice` yields `Infinity`/`NaN`, never ≤ band; hence the `key ≠ 0`
conjunct. -/
def withinBand (band p key : ℚ) : Bool :=
  decide (key ≠ 0) && decide (|p - key| / key * 100 ≤ band)

/-- The group key chosen for price `p`: the key of the first existing bucket
(in `Map` insertion order) within the band, else `p` itself. -/
def findGroupKey (band : ℚ) (buckets : List Bucket) (p : ℚ) : ℚ :=
  match buckets.find? (fun b => withinBand band p b.key) with
  | some b => b.key
  | none => p

/-- The body of the grouping loop: accumulate the row into the bucket with
the chosen key, or open a new bucket keyed and represented by the row's
price. -/
def insertPriceRow (band : ℚ) (buckets : List Bucket) (r : CBRow) : List Bucket :=
  let k := findGroupKey band buckets r.price
  if buckets.any (fun b => b.key = k) then
    buckets.map (fun b =>
      if b.key = k then
        { b with
            totalAmount := b.totalAmount + r.amount
            holderCount := b.holderCount + r.holderCount }
      else b)
  else
    buckets ++ [⟨r.price, r.price, r.amount, r.holderCount⟩]

/-- `FIFOCostBasisCalculator.getHolderPriceLevels` (bucket fields): greedy
single pass over the grouped price rows, then sort by total amount
descending. -/
def getHolderPriceLevels (lots : List CBLot) (band : ℚ) : List Bucket :=
  ((sqlPriceRows lots).foldl (insertPriceRow band) []).mergeSort
    (fun a b => decide (b.totalAmount ≤ a.totalAmount))

/-- The grouping loop with its row → bucket-key assignment recorded alongside
the buckets (the bucket component is exactly `insertPriceRow`). -/
def assignStep (band : ℚ) (st : List (CBRow × ℚ) × List Bucket) (r : CBRow) :
    List (CBRow × ℚ) × List Bucket :=
  (st.1 ++ [(r, findGroupKey band st.2 r.price)], insertPriceRow band st.2 r)

/-- The whole grouping pass with assignments recorded. -/
def assignPass (band : ℚ) (rows : List CBRow) : List (CBRow × ℚ) × List Bucket :=
  rows.foldl (assignStep band) ([], [])

/-- Modelled from the spec: "the count of distinct holders holding lots in
that bucket" — the number of distinct holders having an open lot whose price
is assigned (by the same greedy pass) to the bucket keyed `k`. -/
def specDistinctHolderCount (lots : List CBLot) (band : ℚ) (k : ℚ) : ℕ :=
  let assign := assignPass band (sqlPriceRows lots)
  let prices := (assign.1.filter (fun pk => pk.2 = k)).map (·.1.price)
  (((lots.filter (fun l => decide (0 < l.remaining) && prices.contains l.price)).map
      (·.holderId)).dedup).length

/-- Invariant of the grouping pass: bucket keys are distinct, every recorded
assignment points at an existing bucket, and each bucket's totals are the
sums of the amounts / per-price distinct-holder counts of the rows assigned
to it. -/
def BucketInv (st : List (CBRow × ℚ) × List Bucket) : Prop :=
  (st.2.map (·.key)).Nodup ∧
  (∀ pk ∈ st.1, pk.2 ∈ st.2.map (·.key)) ∧
  (∀ b ∈ st.2,
    b.totalAmount = ((st.1.filter (fun pk => pk.2 = b.key)).map (·.1.amount)).sum ∧
    b.holderCount = ((st.1.filter (fun pk => pk.2 = b.key)).map (·.1.holderCount)).sum)

/-! ## Remaining definitions: scenarios, per-holder transaction folds -/

/-- Total value of the open amounts at the gap to the sale price: what an
oversell realizes. -/
def pnlAll (salePrice : ℚ) (lots : List Lot) : ℚ :=
  (lots.map (fun l => l.remainingAmount * (salePrice - l.pricePerToken))).sum

/-- Spec §8 scenario, first leg: buy 100 @ $1 (lot A). -/
def scenBuyA : TokenTransaction := ⟨1, 7, 9, .buy, 100, 1, 0⟩

/-- Spec §8 scenario, second leg: buy 100 @ $2 (lot B). -/
def scenBuyB : TokenTransaction := ⟨2, 7, 9, .buy, 100, 2, 1⟩

/-- Spec §8 scenario, third leg: sell 150 @ $3. -/
def scenSell : TokenTransaction := ⟨3, 7, 9, .sell, 150, 3, 2⟩

/-- Holder position and lots after the scenario's first buy. -/
def scenStep1 : HolderRow × List Lot :=
  updatePositionForTransaction (newHolderRow 0 7 9) [] scenBuyA 0

/-- Holder position and lots after the scenario's second buy. -/
def scenStep2 : HolderRow × List Lot :=
  updatePositionForTransaction scenStep1.1 scenStep1.2 scenBuyB 1

/-- Holder position and lots after the scenario's sell of 150 @ $3. -/
def scenStep3 : HolderRow × List Lot :=
  updatePositionForTransaction scenStep2.1 scenStep2.2 scenSell 2

/-- One ingestion step on a single holder's position and lots, assigning the
next creation index to a lot added by a buy. -/
def applyTx (st : HolderRow × List Lot) (e : TokenTransaction) : HolderRow × List Lot :=
  updatePositionForTransaction st.1 st.2 e st.2.length

/-- Fold a list of transactions over a holder's position. -/
def applySeq (st : HolderRow × List Lot) (es : List TokenTransaction) :
    HolderRow × List Lot :=
  es.foldl applyTx st

/-- The no-transfer / no-oversell side condition of the conservation claim:
every event is a buy of positive amount or a sell of positive amount not
exceeding the total remaining lot amount at its point of application. -/
def okSeq : HolderRow × List Lot → List TokenTransaction → Bool
  | _, [] => true
  | st, e :: es =>
    (match e.txType with
      | .buy => decide (0 < e.amount)
      | .sell => decide (0 < e.amount) && decide (e.amount ≤ sumRem st.2)
      | .transfer => false) &&
    okSeq (applyTx st e) es

/-- An empty committed database. -/
def emptyDB : DBState := ⟨[], [], [], [], 0⟩

/-- Spec §8 scenario: a holder with no purchase history sells 10 @ $5. -/
def noLotSell : TokenTransaction := ⟨11, 7, 9, .sell, 10, 5, 0⟩

/-- A buy event used to exhibit the failure-atomicity behaviour. -/
def bugBuy : TokenTransaction := ⟨21, 7, 9, .buy, 100, 1, 0⟩

/-! ## Helper lemmas: FIFO sale arithmetic -/

lemma sumRem_cons (l : Lot) (ls : List Lot) :
    sumRem (l :: ls) = l.remainingAmount + sumRem ls := by
  simp [sumRem]

lemma sumRem_append (xs ys : List Lot) :
    sumRem (xs ++ ys) = sumRem xs + sumRem ys := by
  simp [sumRem]

lemma sumRem_nonneg (lots : List Lot) (h : ∀ l ∈ lots, 0 ≤ l.remainingAmount) :
    0 ≤ sumRem lots := by
  induction lots with
  | nil => simp [sumRem]
  | cons l ls ih =>
    rw [sumRem_cons]
    have h1 := h l (by simp)
    have h2 := ih (fun x hx => h x (by simp [hx]))
    linarith

lemma sumRem_perm {xs ys : List Lot} (h : xs.Perm ys) : sumRem xs = sumRem ys :=
  List.Perm.sum_eq (h.map (·.remainingAmount))

lemma fifoOrdered_perm (lots : List Lot) : (fifoOrdered lots).Perm lots :=
  List.mergeSort_perm lots lotLE

lemma mem_fifoOrdered {l : Lot} {lots : List Lot} :
    l ∈ fifoOrdered lots ↔ l ∈ lots :=
  (fifoOrdered_perm lots).mem_iff

/-- Sum / leftover / nonnegativity facts about the FIFO consumption loop. -/
lemma consumeLots_core (salePrice : ℚ) (lots : List Lot) :
    ∀ S : ℚ, 0 ≤ S → (∀ l ∈ lots, 0 ≤ l.remainingAmount) →
    (consumeLots salePrice S lots).2.2 = max (S - sumRem lots) 0 ∧
    sumRem (consumeLots salePrice S lots).1
      = sumRem lots - (S - (consumeLots salePrice S lots).2.2) ∧
    (∀ l ∈ (consumeLots salePrice S lots).1, 0 ≤ l.remainingAmount) := by
  induction lots with
  | nil =>
    intro S hS _
    refine ⟨?_, by simp [consumeLots, sumRem], by simp [consumeLots]⟩
    simpa [consumeLots, sumRem] using hS
  | cons l ls ih =>
    intro S hS hnn
    have hl : 0 ≤ l.remainingAmount := hnn l (by simp)
    have hls : ∀ x ∈ ls, 0 ≤ x.remainingAmount := fun x hx => hnn x (by simp [hx])
    have hsum : 0 ≤ sumRem ls := sumRem_nonneg ls hls
    by_cases h0 : S ≤ 0
    · have hS0 : S = 0 := le_antisymm h0 hS
      subst hS0
      refine ⟨?_, by simp [consumeLots], ?_⟩
      · have hmax : max (0 - sumRem (l :: ls)) 0 = 0 := by
          rw [max_eq_right]
          rw [sumRem_cons]
          linarith
        rw [hmax]
        simp [consumeLots]
      · intro x hx
        simp only [consumeLots, if_pos (le_refl (0 : ℚ))] at hx
        exact hnn x hx
    · push_neg at h0
      by_cases hz : l.remainingAmount ≤ 0
      · have hz0 : l.remainingAmount = 0 := le_antisymm hz hl
        obtain ⟨ih1, ih2, ih3⟩ := ih S hS hls
        simp only [consumeLots, if_neg (not_le.mpr h0), if_pos hz]
        refine ⟨?_, ?_, ?_⟩
        · rw [ih1, sumRem_cons, hz0]
          ring_nf
        · rw [sumRem_cons, sumRem_cons, ih2]
          ring
        · intro x hx
          simp only [List.mem_cons] at hx
          rcases hx with h | h
          · exact h ▸ hl
          · exact ih3 x h
      · push_neg at hz
        have husednn : 0 ≤ min S l.remainingAmount := le_min (le_of_lt h0) (le_of_lt hz)
        have hS' : 0 ≤ S - min S l.remainingAmount := by
          have := min_le_left S l.remainingAmount
          linarith
        obtain ⟨ih1, ih2, ih3⟩ := ih (S - min S l.remainingAmount) hS' hls
        simp only [consumeLots, if_neg (not_le.mpr h0), if_neg (not_le.mpr hz)]
        refine ⟨?_, ?_, ?_⟩
        · rw [ih1, sumRem_cons]
          rcases le_total S l.remainingAmount with hc | hc
          · rw [min_eq_left hc]
            rw [max_eq_right (by linarith), max_eq_right (by linarith)]
          · rw [min_eq_right hc]
            have harr : S - l.remainingAmount - sumRem ls
                = S - (l.remainingAmount + sumRem ls) := by ring
            rw [harr]
        · rw [sumRem_cons, sumRem_cons, ih2]
          ring
        · intro x hx
          simp only [List.mem_cons] at hx
          rcases hx with h | h
          · subst h
            have := min_le_right S l.remainingAmount
            simp only []
            linarith
          · exact ih3 x h

lemma all_rem_zero_of_sum_nonpos (lots : List Lot)
    (hnn : ∀ l ∈ lots, 0 ≤ l.remainingAmount) (hs : sumRem lots ≤ 0) :
    ∀ l ∈ lots, l.remainingAmount = 0 := by
  induction lots with
  | nil => simp
  | cons l ls ih =>
    rw [sumRem_cons] at hs
    have hl := hnn l (by simp)
    have hls : ∀ x ∈ ls, 0 ≤ x.remainingAmount := fun x hx => hnn x (by simp [hx])
    have hsum := sumRem_nonneg ls hls
    intro x hx
    rcases List.mem_cons.mp hx with h | h
    · subst h
      linarith
    · exact ih hls (by linarith) x h

lemma pnlAll_perm (salePrice : ℚ) {xs ys : List Lot} (h : xs.Perm ys) :
    pnlAll salePrice xs = pnlAll salePrice ys :=
  List.Perm.sum_eq (h.map _)

/-- An oversell (`sumRem lots ≤ S`) drains every lot to zero and realizes
exactly the value of what was available. -/
lemma consumeLots_drain (salePrice : ℚ) (lots : List Lot) :
    ∀ S : ℚ, (∀ l ∈ lots, 0 ≤ l.remainingAmount) → sumRem lots ≤ S →
    (∀ l ∈ (consumeLots salePrice S lots).1, l.remainingAmount = 0) ∧
    (consumeLots salePrice S lots).2.1 = pnlAll salePrice lots := by
  induction lots with
  | nil =>
    intro S _ _
    simp [consumeLots, pnlAll]
  | cons l ls ih =>
    intro S hnn hover
    have hl : 0 ≤ l.remainingAmount := hnn l (by simp)
    have hls : ∀ x ∈ ls, 0 ≤ x.remainingAmount := fun x hx => hnn x (by simp [hx])
    have hsum : 0 ≤ sumRem ls := sumRem_nonneg ls hls
    rw [sumRem_cons] at hover
    by_cases h0 : S ≤ 0
    · have hz : ∀ x ∈ l :: ls, x.remainingAmount = 0 :=
        all_rem_zero_of_sum_nonpos _ hnn (by rw [sumRem_cons]; linarith)
      constructor
      · intro x hx
        simp only [consumeLots, if_pos h0] at hx
        exact hz x hx
      · simp only [consumeLots, if_pos h0]
        rw [pnlAll]
        symm
        apply List.sum_eq_zero
        intro y hy
        simp only [List.mem_map] at hy
        obtain ⟨x, hx, hxy⟩ := hy
        rw [← hxy, hz x hx, zero_mul]
    · push_neg at h0
      by_cases hz : l.remainingAmount ≤ 0
      · have hz0 : l.remainingAmount = 0 := le_antisymm hz hl
        obtain ⟨ih1, ih2⟩ := ih S hls (by linarith)
        simp only [consumeLots, if_neg (not_le.mpr h0), if_pos hz]
        constructor
        · intro x hx
          rcases List.mem_cons.mp hx with h | h
          · exact h ▸ hz0
          · exact ih1 x h
        · rw [pnlAll, List.map_cons, List.sum_cons, hz0]
          rw [pnlAll] at ih2
          rw [ih2]
          ring
      · push_neg at hz
        have hrS : l.remainingAmount ≤ S := by linarith
        have hmin : min S l.remainingAmount = l.remainingAmount := min_eq_right hrS
        obtain ⟨ih1, ih2⟩ := ih (S - l.remainingAmount) hls (by linarith)
        simp only [consumeLots, if_neg (not_le.mpr h0), if_neg (not_le.mpr hz), hmin]
        constructor
        · intro x hx
          rcases List.mem_cons.mp hx with h | h
          · subst h
            simp
          · exact ih1 x h
        · rw [pnlAll, List.map_cons, List.sum_cons]
          rw [pnlAll] at ih2
          rw [ih2]

lemma specFifoUsed_length (S : ℚ) (rs : List ℚ) :
    (specFifoUsed S rs).length = rs.length := by
  induction rs generalizing S with
  | nil => simp [specFifoUsed]
  | cons r rs ih => simp [specFifoUsed, ih]

lemma max_sub_min_helper (S r P : ℚ) (hP : 0 ≤ P) :
    max (S - min S r - P) 0 = max (S - (r + P)) 0 := by
  rcases le_total S r with h | h
  · rw [min_eq_left h, max_eq_right (by linarith), max_eq_right (by linarith)]
  · rw [min_eq_right h]
    congr 1
    ring

lemma take_sum_nonneg (rs : List ℚ) (h : ∀ r ∈ rs, 0 ≤ r) (i : ℕ) :
    0 ≤ (rs.take i).sum := by
  apply List.sum_nonneg
  intro x hx
  exact h x (List.mem_of_mem_take hx)

/-- Closed form of the spec's FIFO consumption: lot `i` gives up
`min(itsRemaining, max(saleAmount − Σ of the remainings before it, 0))`. -/
lemma specFifoUsed_get (rs : List ℚ) :
    ∀ (S : ℚ), 0 ≤ S → (∀ r ∈ rs, 0 ≤ r) →
    ∀ i (hi : i < rs.length) (hi' : i < (specFifoUsed S rs).length),
      (specFifoUsed S rs).get ⟨i, hi'⟩
        = min (rs.get ⟨i, hi⟩) (max (S - (rs.take i).sum) 0) := by
  induction rs with
  | nil =>
    intro S _ _ i hi
    simp at hi
  | cons r rs ih =>
    intro S hS hnn i hi hi'
    have hrs : ∀ x ∈ rs, 0 ≤ x := fun x hx => hnn x (by simp [hx])
    cases i with
    | zero =>
      simp [specFifoUsed, min_comm S r, max_eq_left hS]
    | succ i =>
      have hS' : 0 ≤ S - min S r := by
        have := min_le_left S r
        linarith
      have hi2 : i < rs.length := by simpa using hi
      have hi2' : i < (specFifoUsed (S - min S r) rs).length := by
        rw [specFifoUsed_length]
        exact hi2
      have hih := ih (S - min S r) hS' hrs i hi2 hi2'
      have hmax := max_sub_min_helper S r ((rs.take i).sum) (take_sum_nonneg rs hrs i)
      simp only [specFifoUsed, List.get_cons_succ, List.take_succ_cons, List.sum_cons]
      rw [hih, ← hmax]

lemma zip_spec_zero_fst (lots : List Lot)
    (hnn : ∀ l ∈ lots, 0 ≤ l.remainingAmount) :
    List.zipWith (fun l u => { l with remainingAmount := l.remainingAmount - u })
      lots (specFifoUsed 0 (lots.map (·.remainingAmount))) = lots := by
  induction lots with
  | nil => simp
  | cons l ls ih =>
    have hl : 0 ≤ l.remainingAmount := hnn l (by simp)
    have hls : ∀ x ∈ ls, 0 ≤ x.remainingAmount := fun x hx => hnn x (by simp [hx])
    simp only [List.map_cons, specFifoUsed, min_eq_left hl, List.zipWith_cons_cons,
      sub_zero, zero_sub, neg_zero]
    rw [ih hls]

lemma zip_spec_zero_snd (p : ℚ) (lots : List Lot)
    (hnn : ∀ l ∈ lots, 0 ≤ l.remainingAmount) :
    (List.zipWith (fun l u => u * (p - l.pricePerToken))
      lots (specFifoUsed 0 (lots.map (·.remainingAmount)))).sum = 0 := by
  induction lots with
  | nil => simp
  | cons l ls ih =>
    have hl : 0 ≤ l.remainingAmount := hnn l (by simp)
    have hls : ∀ x ∈ ls, 0 ≤ x.remainingAmount := fun x hx => hnn x (by simp [hx])
    simp only [List.map_cons, specFifoUsed, min_eq_left hl, List.zipWith_cons_cons,
      sub_zero, zero_sub, neg_zero, List.sum_cons, zero_mul, zero_add]
    exact ih hls

/-- The source's FIFO loop computes exactly the spec's per-lot consumptions:
each lot's remaining amount drops by its `specFifoUsed` entry, and the
realized PnL is the sum of `used * (salePrice − lotPrice)`. -/
lemma consumeLots_eq_spec (p : ℚ) (lots : List Lot) :
    ∀ S : ℚ, 0 ≤ S → (∀ l ∈ lots, 0 < l.remainingAmount) →
    (consumeLots p S lots).1
      = List.zipWith (fun l u => { l with remainingAmount := l.remainingAmount - u })
          lots (specFifoUsed S (lots.map (·.remainingAmount))) ∧
    (consumeLots p S lots).2.1
      = (List.zipWith (fun l u => u * (p - l.pricePerToken))
          lots (specFifoUsed S (lots.map (·.remainingAmount)))).sum := by
  induction lots with
  | nil =>
    intro S _ _
    simp [consumeLots]
  | cons l ls ih =>
    intro S hS hpos
    have hl : 0 < l.remainingAmount := hpos l (by simp)
    have hls : ∀ x ∈ ls, 0 < x.remainingAmount := fun x hx => hpos x (by simp [hx])
    by_cases h0 : S ≤ 0
    · have hS0 : S = 0 := le_antisymm h0 hS
      subst hS0
      constructor
      · rw [zip_spec_zero_fst (l :: ls) (fun x hx => le_of_lt (hpos x hx))]
        simp [consumeLots]
      · rw [zip_spec_zero_snd p (l :: ls) (fun x hx => le_of_lt (hpos x hx))]
        simp [consumeLots]
    · push_neg at h0
      have hS' : 0 ≤ S - min S l.remainingAmount := by
        have := min_le_left S l.remainingAmount
        linarith
      obtain ⟨ih1, ih2⟩ := ih (S - min S l.remainingAmount) hS' hls
      simp only [consumeLots, if_neg (not_le.mpr h0), if_neg (not_le.mpr hl),
        List.map_cons, specFifoUsed, List.zipWith_cons_cons, List.sum_cons]
      constructor
      · rw [ih1]
      · rw [ih2]

/-! ## Claim theorems -/

/-- C1: `processSale` consumes a holder's FIFO-ordered positive lots
oldest-first, each lot giving up `min(remaining sale amount,
lot.remainingAmount)` (equivalently `min(lot.remainingAmount,
max(saleAmount − amount consumed before it, 0))`), the realized PnL is the
sum of `used * (salePrice − lot.pricePerToken)`, and on the spec scenario —
buy 100 @ $1 (lot A), buy 100 @ $2 (lot B), sell 150 @ $3 — lot A is fully
consumed, lot B retains 50, and the realized PnL is $250. -/
theorem fifo_sale_consumes_oldest_first (lots : List Lot) (S p : ℚ)
    (hS : 0 < S) (hpos : ∀ l ∈ lots, 0 < l.remainingAmount) :
    ((consumeLots p S lots).1
        = List.zipWith (fun l u => { l with remainingAmount := l.remainingAmount - u })
            lots (specFifoUsed S (lots.map (·.remainingAmount))) ∧
      (consumeLots p S lots).2.1
        = (List.zipWith (fun l u => u * (p - l.pricePerToken))
            lots (specFifoUsed S (lots.map (·.remainingAmount)))).sum) ∧
    (∀ i (hi : i < lots.length)
        (hi' : i < (specFifoUsed S (lots.map (·.remainingAmount))).length),
        (specFifoUsed S (lots.map (·.remainingAmount))).get ⟨i, hi'⟩
          = min ((lots.map (·.remainingAmount)).get ⟨i, by simpa using hi⟩)
              (max (S - ((lots.map (·.remainingAmount)).take i).sum) 0)) ∧
    (scenStep3.1.realizedPnl = 250 ∧
      scenStep3.2.map (fun l => (l.remainingAmount, l.pricePerToken))
        = [(0, 1), (50, 2)]) := by
  refine ⟨consumeLots_eq_spec p lots S (le_of_lt hS) hpos, ?_, ?_⟩
  · intro i hi hi'
    apply specFifoUsed_get (lots.map (·.remainingAmount)) S (le_of_lt hS)
    intro r hr
    obtain ⟨l, hl, rfl⟩ := List.mem_map.mp hr
    exact le_of_lt (hpos l hl)
  · constructor
    · norm_num [scenStep3, scenStep2, scenStep1, scenBuyA, scenBuyB, scenSell,
        updatePositionForTransaction, newHolderRow, processSale, consumeLots,
        openLots, fifoOrdered, List.mergeSort, lotLE, totalCostBasis]
      simp
    · norm_num [scenStep3, scenStep2, scenStep1, scenBuyA, scenBuyB, scenSell,
        updatePositionForTransaction, newHolderRow, processSale, consumeLots,
        openLots, fifoOrdered, List.mergeSort, lotLE, totalCostBasis]
      simp

/-- Witness for C1 at the scenario's own lots: sale of 150 @ $3 against lots
of 100 @ $1 and 100 @ $2. -/
theorem fifo_sale_consumes_oldest_first_witness :
    (0 : ℚ) < 150 ∧
    (consumeLots 3 150 [⟨100, 100, 1, 0, 0⟩, ⟨100, 100, 2, 1, 1⟩]).2.1
      = (List.zipWith (fun l u => u * ((3 : ℚ) - l.pricePerToken))
          ([⟨100, 100, 1, 0, 0⟩, ⟨100, 100, 2, 1, 1⟩] : List Lot)
          (specFifoUsed 150
            (([⟨100, 100, 1, 0, 0⟩, ⟨100, 100, 2, 1, 1⟩] : List Lot).map
              (·.remainingAmount)))).sum :=
  ⟨by norm_num,
    (fifo_sale_consumes_oldest_first [⟨100, 100, 1, 0, 0⟩, ⟨100, 100, 2, 1, 1⟩] 150 3
      (by norm_num)
      (by intro l hl; fin_cases hl <;> norm_num)).1.2⟩


lemma openLots_nil_all_zero (lots : List Lot)
    (hnn : ∀ l ∈ lots, 0 ≤ l.remainingAmount) (h : openLots lots = []) :
    ∀ l ∈ lots, l.remainingAmount = 0 := by
  intro l hl
  have := (List.filter_eq_nil_iff.mp h) l hl
  simp only [decide_eq_true_eq] at this
  have := hnn l hl
  linarith

lemma pnlAll_zero_of_all_zero (p : ℚ) (lots : List Lot)
    (h : ∀ l ∈ lots, l.remainingAmount = 0) : pnlAll p lots = 0 := by
  apply List.sum_eq_zero
  intro y hy
  obtain ⟨x, hx, rfl⟩ := List.mem_map.mp hy
  rw [h x hx, zero_mul]

/-- C5: a sale exceeding the total available lot amount drains every lot to
`remainingAmount = 0`, returns realized PnL computed only for the matched
portion (the shortfall contributes exactly zero), and warns instead of
throwing; in the limiting case of a holder with no lots, the returned PnL is
0, a warning is emitted, and the sale transaction is still recorded (the
transaction row commits and the holder's totalSold/balance are updated). -/
theorem oversell_drains_lots (lots : List Lot) (S p : ℚ)
    (hnn : ∀ l ∈ lots, 0 ≤ l.remainingAmount) (hover : sumRem lots < S) :
    (∀ l ∈ (processSale (fifoOrdered lots) S p).lots, l.remainingAmount = 0) ∧
    (processSale (fifoOrdered lots) S p).realizedPnl = pnlAll p lots ∧
    (processSale (fifoOrdered lots) S p).warned = true ∧
    processSale [] S p = ⟨[], 0, true⟩ ∧
    (processTransaction emptyDB noLotSell false).2 = false ∧
    (processTransaction emptyDB noLotSell false).1.transactions.map (·.signature) = [11] ∧
    (processTransaction emptyDB noLotSell false).1.holders.map
      (fun h => (h.realizedPnl, h.totalSold, h.currentBalance)) = [(0, 10, -10)] := by
  have hperm := fifoOrdered_perm lots
  have hnn' : ∀ l ∈ fifoOrdered lots, 0 ≤ l.remainingAmount :=
    fun l hl => hnn l (mem_fifoOrdered.mp hl)
  have hsum : sumRem (fifoOrdered lots) = sumRem lots := sumRem_perm hperm
  have hS : 0 < S := lt_of_le_of_lt (sumRem_nonneg lots hnn) hover
  refine ⟨?_, ?_, ?_, ?_, ?_, ?_, ?_⟩
  · intro l hl
    by_cases hopen : openLots (fifoOrdered lots) = []
    · rw [processSale, if_pos hopen] at hl
      exact openLots_nil_all_zero _ hnn' hopen l hl
    · rw [processSale, if_neg hopen] at hl
      exact (consumeLots_drain p (fifoOrdered lots) S hnn' (by rw [hsum]; linarith)).1 l hl
  · by_cases hopen : openLots (fifoOrdered lots) = []
    · rw [processSale, if_pos hopen]
      have hz := openLots_nil_all_zero _ hnn' hopen
      have : pnlAll p lots = 0 := by
        apply pnlAll_zero_of_all_zero
        intro l hl
        exact hz l (mem_fifoOrdered.mpr hl)
      rw [this]
    · rw [processSale, if_neg hopen]
      show (consumeLots p S (fifoOrdered lots)).2.1 = pnlAll p lots
      have := (consumeLots_drain p (fifoOrdered lots) S hnn' (by rw [hsum]; linarith)).2
      rw [this]
      exact pnlAll_perm p hperm
  · by_cases hopen : openLots (fifoOrdered lots) = []
    · rw [processSale, if_pos hopen]
    · rw [processSale, if_neg hopen]
      show decide (0 < (consumeLots p S (fifoOrdered lots)).2.2) = true
      have hrem := (consumeLots_core p (fifoOrdered lots) S (le_of_lt hS) hnn').1
      simp only [decide_eq_true_eq]
      rw [hrem, hsum]
      rw [max_eq_left (by linarith)]
      linarith
  · simp [processSale, openLots]
  · norm_num [processTransaction, emptyDB, noLotSell, newHolderRow, holderLotsOf,
      updatePositionForTransaction, processSale, openLots, fifoOrdered,
      List.mergeSort, writeBackLots, totalCostBasis]
  · norm_num [processTransaction, emptyDB, noLotSell, newHolderRow, holderLotsOf,
      updatePositionForTransaction, processSale, openLots, fifoOrdered,
      List.mergeSort, writeBackLots, totalCostBasis]
  · norm_num [processTransaction, emptyDB, noLotSell, newHolderRow, holderLotsOf,
      updatePositionForTransaction, processSale, openLots, fifoOrdered,
      List.mergeSort, writeBackLots, totalCostBasis]

/-- Witness for C5: oversell of 10 @ $3 against a single lot of 5 @ $2
triggers the warning path. -/
theorem oversell_drains_lots_witness :
    (∀ l ∈ ([⟨5, 5, 2, 0, 0⟩] : List Lot), 0 ≤ l.remainingAmount) ∧
    sumRem [⟨5, 5, 2, 0, 0⟩] < 10 ∧
    (processSale (fifoOrdered [⟨5, 5, 2, 0, 0⟩]) 10 3).warned = true :=
  ⟨by intro l hl; fin_cases hl; norm_num,
   by norm_num [sumRem],
   (oversell_drains_lots [⟨5, 5, 2, 0, 0⟩] 10 3
      (by intro l hl; fin_cases hl; norm_num)
      (by norm_num [sumRem])).2.2.1⟩


lemma sumRem_all_zero (lots : List Lot) (h : ∀ l ∈ lots, l.remainingAmount = 0) :
    sumRem lots = 0 := by
  apply List.sum_eq_zero
  intro y hy
  obtain ⟨x, hx, rfl⟩ := List.mem_map.mp hy
  exact h x hx

lemma processSale_no_oversell (lots : List Lot) (S p : ℚ)
    (hnn : ∀ l ∈ lots, 0 ≤ l.remainingAmount) (hpos : 0 < S)
    (hle : S ≤ sumRem lots) :
    sumRem (processSale (fifoOrdered lots) S p).lots = sumRem lots - S ∧
    (∀ l ∈ (processSale (fifoOrdered lots) S p).lots, 0 ≤ l.remainingAmount) := by
  have hperm := fifoOrdered_perm lots
  have hnn' : ∀ l ∈ fifoOrdered lots, 0 ≤ l.remainingAmount :=
    fun l hl => hnn l (mem_fifoOrdered.mp hl)
  have hsum : sumRem (fifoOrdered lots) = sumRem lots := sumRem_perm hperm
  have hopen : ¬ openLots (fifoOrdered lots) = [] := by
    intro hcon
    have hz := openLots_nil_all_zero _ hnn' hcon
    have : sumRem (fifoOrdered lots) = 0 := sumRem_all_zero _ hz
    rw [hsum] at this
    linarith
  obtain ⟨hc1, hc2, hc3⟩ := consumeLots_core p (fifoOrdered lots) S (le_of_lt hpos) hnn'
  have hmax : max (S - sumRem (fifoOrdered lots)) 0 = 0 := by
    rw [max_eq_right]
    rw [hsum]
    linarith
  constructor
  · rw [processSale, if_neg hopen]
    show sumRem (consumeLots p S (fifoOrdered lots)).1 = sumRem lots - S
    rw [hc2, hc1, hmax, hsum]
    ring
  · rw [processSale, if_neg hopen]
    exact hc3

lemma applyTx_preserves (st : HolderRow × List Lot) (e : TokenTransaction)
    (hnn : ∀ l ∈ st.2, 0 ≤ l.remainingAmount)
    (hinv : sumRem st.2 = st.1.totalBought - st.1.totalSold)
    (hok : (match e.txType with
      | .buy => decide (0 < e.amount)
      | .sell => decide (0 < e.amount) && decide (e.amount ≤ sumRem st.2)
      | .transfer => false) = true) :
    (∀ l ∈ (applyTx st e).2, 0 ≤ l.remainingAmount) ∧
    sumRem (applyTx st e).2 = (applyTx st e).1.totalBought - (applyTx st e).1.totalSold := by
  cases he : e.txType with
  | buy =>
    rw [he] at hok
    simp only [decide_eq_true_eq] at hok
    constructor
    · intro l hl
      simp only [applyTx, updatePositionForTransaction, he] at hl
      rcases List.mem_append.mp hl with h | h
      · exact hnn l h
      · simp only [List.mem_singleton] at h
        subst h
        exact le_of_lt hok
    · simp only [applyTx, updatePositionForTransaction, he, sumRem_append]
      rw [hinv]
      simp [sumRem]
      ring
  | sell =>
    rw [he] at hok
    simp only [Bool.and_eq_true, decide_eq_true_eq] at hok
    obtain ⟨hpos, hle⟩ := hok
    obtain ⟨hs1, hs2⟩ := processSale_no_oversell st.2 e.amount e.pricePerToken hnn hpos hle
    constructor
    · intro l hl
      simp only [applyTx, updatePositionForTransaction, he] at hl
      exact hs2 l hl
    · simp only [applyTx, updatePositionForTransaction, he]
      rw [hs1, hinv]
      ring
  | transfer =>
    rw [he] at hok
    simp at hok

lemma conservation_aux (es : List TokenTransaction) :
    ∀ st : HolderRow × List Lot,
    (∀ l ∈ st.2, 0 ≤ l.remainingAmount) →
    sumRem st.2 = st.1.totalBought - st.1.totalSold →
    okSeq st es = true →
    ∀ n, sumRem (applySeq st (es.take n)).2
      = (applySeq st (es.take n)).1.totalBought
        - (applySeq st (es.take n)).1.totalSold := by
  induction es with
  | nil =>
    intro st _ hinv _ n
    simpa [applySeq] using hinv
  | cons e es ih =>
    intro st hnn hinv hok n
    rw [okSeq] at hok
    simp only [Bool.and_eq_true] at hok
    obtain ⟨hok1, hok2⟩ := hok
    obtain ⟨hp1, hp2⟩ := applyTx_preserves st e hnn hinv hok1
    cases n with
    | zero => simpa [applySeq] using hinv
    | succ n =>
      rw [List.take_succ_cons]
      have hfold : applySeq st (e :: es.take n) = applySeq (applyTx st e) (es.take n) := by
        simp [applySeq]
      rw [hfold]
      exact ih (applyTx st e) hp1 hp2 hok2 n


/-- C6: for every holder and every applied sequence of buys and sells with
no transfers and no oversell, the invariant
`Σ remainingAmount = totalBought − totalSold` holds after every
transaction (i.e. after every prefix of the sequence). -/
theorem conservation_invariant (h0 : HolderRow) (lots0 : List Lot)
    (es : List TokenTransaction)
    (hnn : ∀ l ∈ lots0, 0 ≤ l.remainingAmount)
    (hinv : sumRem lots0 = h0.totalBought - h0.totalSold)
    (hok : okSeq (h0, lots0) es = true) :
    ∀ n, sumRem (applySeq (h0, lots0) (es.take n)).2
      = (applySeq (h0, lots0) (es.take n)).1.totalBought
        - (applySeq (h0, lots0) (es.take n)).1.totalSold :=
  conservation_aux es (h0, lots0) hnn hinv hok

/-- C6 witness: buy 100 @ $1 then sell 40 @ $2 from a fresh holder. -/
theorem conservation_invariant_witness :
    okSeq (newHolderRow 0 7 9, ([] : List Lot))
      [⟨1, 7, 9, .buy, 100, 1, 0⟩, ⟨2, 7, 9, .sell, 40, 2, 1⟩] = true ∧
    sumRem (applySeq (newHolderRow 0 7 9, ([] : List Lot))
        (([⟨1, 7, 9, .buy, 100, 1, 0⟩, ⟨2, 7, 9, .sell, 40, 2, 1⟩]
          : List TokenTransaction).take 2)).2
      = (applySeq (newHolderRow 0 7 9, ([] : List Lot))
          (([⟨1, 7, 9, .buy, 100, 1, 0⟩, ⟨2, 7, 9, .sell, 40, 2, 1⟩]
            : List TokenTransaction).take 2)).1.totalBought
        - (applySeq (newHolderRow 0 7 9, ([] : List Lot))
            (([⟨1, 7, 9, .buy, 100, 1, 0⟩, ⟨2, 7, 9, .sell, 40, 2, 1⟩]
              : List TokenTransaction).take 2)).1.totalSold := by
  constructor
  · norm_num [okSeq, applyTx, updatePositionForTransaction, newHolderRow, sumRem,
      processSale, consumeLots, openLots, fifoOrdered, List.mergeSort, lotLE,
      totalCostBasis]
  · exact conservation_invariant (newHolderRow 0 7 9) [] _ (by simp)
      (by norm_num [sumRem, newHolderRow])
      (by norm_num [okSeq, applyTx, updatePositionForTransaction, newHolderRow, sumRem,
          processSale, consumeLots, openLots, fifoOrdered, List.mergeSort, lotLE,
          totalCostBasis]) 2

/-- C7: when a holder's total open lot amount is 0,
`getWeightedAverageCostBasis` returns exactly 0 and `getUnrealizedPnL`
returns the zero-valued record (unrealizedPnl 0, totalAmount 0,
averageCostBasis 0); the zero-denominator guards make both total functions,
so neither divides by zero nor throws. -/
theorem zero_open_amount_division_safe (lots : List Lot) (p : ℚ)
    (h : totalOpenAmount lots = 0) :
    getWeightedAverageCostBasis lots = 0 ∧
    getUnrealizedPnL lots p = ⟨0, 0, 0⟩ := by
  constructor
  · simp [getWeightedAverageCostBasis, h]
  · simp [getUnrealizedPnL, h]

/-- C7 witness: a holder whose only lot is fully spent. -/
theorem zero_open_amount_division_safe_witness :
    totalOpenAmount [⟨0, 5, 2, 0, 0⟩] = 0 ∧
    getWeightedAverageCostBasis [⟨0, 5, 2, 0, 0⟩] = 0 ∧
    getUnrealizedPnL [⟨0, 5, 2, 0, 0⟩] 3 = ⟨0, 0, 0⟩ := by
  have h : totalOpenAmount [(⟨0, 5, 2, 0, 0⟩ : Lot)] = 0 := by
    norm_num [totalOpenAmount, openLots]
  exact ⟨h, zero_open_amount_division_safe [⟨0, 5, 2, 0, 0⟩] 3 h⟩

/-- C10: a sell subtracts the amount from the holder's balance with no
precondition that balance ≥ amount — the balance may go negative, in which
case `isActive` (recomputed as `balance > 0`) becomes false; the operation
never rejects; an outgoing transfer likewise just adds its signed amount. -/
theorem sell_has_no_balance_precondition (h : HolderRow) (lots : List Lot)
    (e : TokenTransaction) (n : ℕ) (hsell : e.txType = .sell) :
    (updatePositionForTransaction h lots e n).1.currentBalance
      = h.currentBalance - e.amount ∧
    (updatePositionForTransaction h lots e n).1.totalSold = h.totalSold + e.amount ∧
    (updatePositionForTransaction h lots e n).1.isActive
      = decide (0 < h.currentBalance - e.amount) ∧
    (h.currentBalance < e.amount →
      (updatePositionForTransaction h lots e n).1.isActive = false) ∧
    (∀ e' : TokenTransaction, e'.txType = .transfer →
      (updatePositionForTransaction h lots e' n).1.currentBalance
        = h.currentBalance + e'.amount ∧
      (updatePositionForTransaction h lots e' n).1.isActive
        = decide (0 < h.currentBalance + e'.amount)) := by
  refine ⟨?_, ?_, ?_, ?_, ?_⟩
  · simp [updatePositionForTransaction, hsell]
  · simp [updatePositionForTransaction, hsell]
  · simp [updatePositionForTransaction, hsell]
  · intro hlt
    simp only [updatePositionForTransaction, hsell]
    simp only [decide_eq_false_iff_not, not_lt]
    linarith
  · intro e' ht
    constructor
    · simp [updatePositionForTransaction, ht]
    · simp [updatePositionForTransaction, ht]

/-- C10 witness: selling 8 from a balance of 5 leaves −3 and marks the
holder inactive. -/
theorem sell_has_no_balance_precondition_witness :
    (⟨2, 7, 9, 5, 5, 0, 1, 0, true⟩ : HolderRow).currentBalance < 8 ∧
    (updatePositionForTransaction ⟨2, 7, 9, 5, 5, 0, 1, 0, true⟩ []
        ⟨31, 7, 9, .sell, 8, 2, 0⟩ 0).1.currentBalance = -3 ∧
    (updatePositionForTransaction ⟨2, 7, 9, 5, 5, 0, 1, 0, true⟩ []
        ⟨31, 7, 9, .sell, 8, 2, 0⟩ 0).1.isActive = false := by
  refine ⟨by norm_num, ?_, ?_⟩
  · have := (sell_has_no_balance_precondition ⟨2, 7, 9, 5, 5, 0, 1, 0, true⟩ []
      ⟨31, 7, 9, .sell, 8, 2, 0⟩ 0 rfl).1
    rw [this]
    norm_num
  · exact (sell_has_no_balance_precondition ⟨2, 7, 9, 5, 5, 0, 1, 0, true⟩ []
      ⟨31, 7, 9, .sell, 8, 2, 0⟩ 0 rfl).2.2.2.1 (by norm_num)


lemma processTransaction_sig_committed (s : DBState) (e : TokenTransaction) :
    (processTransaction s e false).1.transactions.any
      (fun t => t.signature = e.signature) = true := by
  by_cases hdup : s.transactions.any (fun t => t.signature = e.signature) = true
  · rw [processTransaction, if_pos hdup]
    exact hdup
  · rw [processTransaction, if_neg hdup]
    rcases hfind : s.tokens.find? (fun t => t.2 = e.tokenAddress) with _ | tk
    · rcases hfind2 : s.holders.find?
        (fun h => h.tokenId = s.nextId ∧ h.walletAddress = e.walletAddress) with _ | hr
      · simp [hfind, hfind2, List.any_append]
      · simp [hfind, hfind2, List.any_append]
    · rcases hfind2 : s.holders.find?
        (fun h => h.tokenId = tk.1 ∧ h.walletAddress = e.walletAddress) with _ | hr
      · simp [hfind, hfind2, List.any_append]
      · simp [hfind, hfind2, List.any_append]

/-- C4: ingesting an event whose signature is already committed is a silent
no-op (state unchanged, no error), and hence ingesting any event twice
yields exactly the committed state of ingesting it once. -/
theorem duplicate_signature_silent_noop (s : DBState) (e : TokenTransaction) :
    (∀ s' : DBState, s'.transactions.any (fun t => t.signature = e.signature) = true →
      processTransaction s' e false = (s', false)) ∧
    processTransaction (processTransaction s e false).1 e false
      = ((processTransaction s e false).1, false) := by
  have hnoop : ∀ s' : DBState,
      s'.transactions.any (fun t => t.signature = e.signature) = true →
      processTransaction s' e false = (s', false) := by
    intro s' h
    rw [processTransaction, if_pos h]
  exact ⟨hnoop, hnoop _ (processTransaction_sig_committed s e)⟩


/-- C4 witness. -/
theorem duplicate_signature_silent_noop_witness :
    (⟨[(0, 7)], [⟨1, 0, 11, 9, .sell, 10, 5⟩], [], [], 2⟩ : DBState).transactions.any
      (fun t => t.signature = (noLotSell).signature) = true ∧
    processTransaction ⟨[(0, 7)], [⟨1, 0, 11, 9, .sell, 10, 5⟩], [], [], 2⟩ noLotSell false
      = (⟨[(0, 7)], [⟨1, 0, 11, 9, .sell, 10, 5⟩], [], [], 2⟩, false) :=
  ⟨by simp [noLotSell],
   (duplicate_signature_silent_noop ⟨[(0, 7)], [⟨1, 0, 11, 9, .sell, 10, 5⟩], [], [], 2⟩
      noLotSell).1 _ (by simp [noLotSell])⟩

/-- C2 failing input: a buy whose holder UPDATE fails is rolled back, yet its
cost-basis lot insert — performed on a separate autocommit connection —
survives the rollback: no committed signature, but a committed lot. -/
theorem rolled_back_buy_leaves_committed_lot :
    (processTransaction emptyDB bugBuy true).2 = true ∧
    (processTransaction emptyDB bugBuy true).1.transactions = [] ∧
    (processTransaction emptyDB bugBuy true).1.holders = [] ∧
    (processTransaction emptyDB bugBuy true).1.lots.map
      (fun r => (r.1, r.2.remainingAmount, r.2.pricePerToken)) = [(2, 100, 1)] := by
  norm_num [processTransaction, emptyDB, bugBuy, newHolderRow, holderLotsOf,
    updatePositionForTransaction, totalCostBasis, openLots]

/-- C3 counterexample: with a queue `[1, 2]` whose first item fails, the
drain ends with item 2 still unprocessed in the queue — the failure of one
item does halt processing of the items behind it within that drain. -/
theorem queue_item_failure_ends_drain :
    drainQueue (fun n => decide (n ≠ 1)) [1, 2] = ([1], [2]) ∧
    2 ∉ (drainQueue (fun n => decide (n ≠ 1)) [1, 2]).1 := by
  decide

/-- C3 amended: the drain applies items in arrival order up to and including
the first failing item; the failure is contained (the drain function returns
rather than propagating), but the items behind the failing one are left in
the queue for a later drain, not processed in this one. -/
theorem queue_drain_stops_at_first_failure {α : Type} (ok : α → Bool) (q : List α) :
    ((∀ t ∈ q, ok t = true) → drainQueue ok q = (q, [])) ∧
    (∀ pre f post, q = pre ++ f :: post → (∀ t ∈ pre, ok t = true) →
      ok f = false → drainQueue ok q = (pre ++ [f], post)) := by
  constructor
  · intro hall
    induction q with
    | nil => simp [drainQueue]
    | cons t rest ih =>
      have ht : ok t = true := hall t (by simp)
      rw [drainQueue, if_pos ht, ih (fun x hx => hall x (by simp [hx]))]
  · intro pre f post hq hpre hf
    subst hq
    induction pre with
    | nil =>
      simp only [List.nil_append]
      rw [drainQueue, if_neg (by simp [hf])]
    | cons t rest ih =>
      have ht : ok t = true := hpre t (by simp)
      simp only [List.cons_append]
      rw [drainQueue, if_pos ht, ih (fun x hx => hpre x (by simp [hx]))]

/-- C3 witness (for the amended theorem). -/
theorem queue_drain_stops_at_first_failure_witness :
    ((fun n => decide (n ≠ 1)) 1 = false) ∧
    drainQueue (fun n => decide (n ≠ 1)) ([] ++ 1 :: [2]) = ([] ++ [1], [2]) :=
  ⟨by decide,
   (queue_drain_stops_at_first_failure (fun n => decide (n ≠ 1)) ([] ++ 1 :: [2])).2
     [] 1 [2] rfl (by simp) (by decide)⟩

end Monke

namespace Monke

lemma zones_foldl (p : ℚ) (rows : List ZoneRow) :
    ∀ acc : ZonesResult,
    (rows.foldl (zoneStep p) acc).profitHolders
        = acc.profitHolders
          + rows.countP (fun r => decide (classifyZone (1/100) p r.averageCostBasis = .profit)) ∧
    (rows.foldl (zoneStep p) acc).lossHolders
        = acc.lossHolders
          + rows.countP (fun r => decide (classifyZone (1/100) p r.averageCostBasis = .loss)) ∧
    (rows.foldl (zoneStep p) acc).breakEvenHolders
        = acc.breakEvenHolders
          + rows.countP (fun r => decide (classifyZone (1/100) p r.averageCostBasis = .breakEven)) ∧
    (rows.foldl (zoneStep p) acc).totalHolders = acc.totalHolders ∧
    (rows.foldl (zoneStep p) acc).profitAmountUSD
        = acc.profitAmountUSD
          + ((rows.filter (fun r => decide (classifyZone (1/100) p r.averageCostBasis = .profit))).map
              (fun r => r.currentBalance * p)).sum ∧
    (rows.foldl (zoneStep p) acc).lossAmountUSD
        = acc.lossAmountUSD
          + ((rows.filter (fun r => decide (classifyZone (1/100) p r.averageCostBasis = .loss))).map
              (fun r => r.currentBalance * p)).sum ∧
    (rows.foldl (zoneStep p) acc).breakEvenAmountUSD
        = acc.breakEvenAmountUSD
          + ((rows.filter (fun r => decide (classifyZone (1/100) p r.averageCostBasis = .breakEven))).map
              (fun r => r.currentBalance * p)).sum := by
  induction rows with
  | nil => intro acc; simp
  | cons r rows ih =>
    intro acc
    obtain ⟨ih1, ih2, ih3, ih4, ih5, ih6, ih7⟩ := ih (zoneStep p acc r)
    rcases hc : classifyZone (1/100) p r.averageCostBasis with _ | _ | _
    · have hz : zoneStep p acc r = { acc with
          profitHolders := acc.profitHolders + 1
          profitAmountUSD := acc.profitAmountUSD + r.currentBalance * p } := by
        unfold zoneStep
        rw [hc]
      refine ⟨?_, ?_, ?_, ?_, ?_, ?_, ?_⟩
      · rw [List.foldl_cons, ih1, hz, List.countP_cons]
        simp only [hc, decide_eq_true_eq]
        simp
        try omega
        try ring
      · rw [List.foldl_cons, ih2, hz, List.countP_cons]
        simp only [hc, decide_eq_true_eq]
        simp
        try omega
        try ring
      · rw [List.foldl_cons, ih3, hz, List.countP_cons]
        simp only [hc, decide_eq_true_eq]
        simp
        try omega
        try ring
      · rw [List.foldl_cons, ih4, hz]
      · rw [List.foldl_cons, ih5, hz, List.filter_cons]
        simp only [hc, decide_eq_true_eq]
        simp
        try omega
        try ring
      · rw [List.foldl_cons, ih6, hz, List.filter_cons]
        simp only [hc, decide_eq_true_eq]
        simp
        try omega
        try ring
      · rw [List.foldl_cons, ih7, hz, List.filter_cons]
        simp only [hc, decide_eq_true_eq]
        simp
        try omega
        try ring
    · have hz : zoneStep p acc r = { acc with
          lossHolders := acc.lossHolders + 1
          lossAmountUSD := acc.lossAmountUSD + r.currentBalance * p } := by
        unfold zoneStep
        rw [hc]
      refine ⟨?_, ?_, ?_, ?_, ?_, ?_, ?_⟩
      · rw [List.foldl_cons, ih1, hz, List.countP_cons]
        simp only [hc, decide_eq_true_eq]
        simp
        try omega
        try ring
      · rw [List.foldl_cons, ih2, hz, List.countP_cons]
        simp only [hc, decide_eq_true_eq]
        simp
        try omega
        try ring
      · rw [List.foldl_cons, ih3, hz, List.countP_cons]
        simp only [hc, decide_eq_true_eq]
        simp
        try omega
        try ring
      · rw [List.foldl_cons, ih4, hz]
      · rw [List.foldl_cons, ih5, hz, List.filter_cons]
        simp only [hc, decide_eq_true_eq]
        simp
        try omega
        try ring
      · rw [List.foldl_cons, ih6, hz, List.filter_cons]
        simp only [hc, decide_eq_true_eq]
        simp
        try omega
        try ring
      · rw [List.foldl_cons, ih7, hz, List.filter_cons]
        simp only [hc, decide_eq_true_eq]
        simp
        try omega
        try ring
    · have hz : zoneStep p acc r = { acc with
          breakEvenHolders := acc.breakEvenHolders + 1
          breakEvenAmountUSD := acc.breakEvenAmountUSD + r.currentBalance * p } := by
        unfold zoneStep
        rw [hc]
      refine ⟨?_, ?_, ?_, ?_, ?_, ?_, ?_⟩
      · rw [List.foldl_cons, ih1, hz, List.countP_cons]
        simp only [hc, decide_eq_true_eq]
        simp
        try omega
        try ring
      · rw [List.foldl_cons, ih2, hz, List.countP_cons]
        simp only [hc, decide_eq_true_eq]
        simp
        try omega
        try ring
      · rw [List.foldl_cons, ih3, hz, List.countP_cons]
        simp only [hc, decide_eq_true_eq]
        simp
        try omega
        try ring
      · rw [List.foldl_cons, ih4, hz]
      · rw [List.foldl_cons, ih5, hz, List.filter_cons]
        simp only [hc, decide_eq_true_eq]
        simp
        try omega
        try ring
      · rw [List.foldl_cons, ih6, hz, List.filter_cons]
        simp only [hc, decide_eq_true_eq]
        simp
        try omega
        try ring
      · rw [List.foldl_cons, ih7, hz, List.filter_cons]
        simp only [hc, decide_eq_true_eq]
        simp
        try omega
        try ring

/-- C8: per-holder profit/loss-zone classification with 1% tolerance.  The
aggregate counts and USD amounts are exactly the counts/sums of rows whose
`pct = (currentPrice − avg) / avg` classifies as profit (`pct > 1/100`), loss
(`pct < −1/100`) or break-even (otherwise); `avg = 0` and the exact `+1%`
boundary are break-even. -/
theorem profit_loss_zone_classification (rows : List ZoneRow) (price avg : ℚ)
    (havg : avg ≠ 0) :
    ((calculateProfitLossZones rows price).profitHolders
        = rows.countP (fun r => decide (classifyZone (1/100) price r.averageCostBasis = .profit)) ∧
      (calculateProfitLossZones rows price).lossHolders
        = rows.countP (fun r => decide (classifyZone (1/100) price r.averageCostBasis = .loss)) ∧
      (calculateProfitLossZones rows price).breakEvenHolders
        = rows.countP (fun r => decide (classifyZone (1/100) price r.averageCostBasis = .breakEven)) ∧
      (calculateProfitLossZones rows price).totalHolders = rows.length ∧
      (calculateProfitLossZones rows price).profitAmountUSD
        = ((rows.filter (fun r => decide (classifyZone (1/100) price r.averageCostBasis = .profit))).map
            (fun r => r.currentBalance * price)).sum) ∧
    (classifyZone (1/100) price avg = .profit ↔ 1/100 < (price - avg) / avg) ∧
    (classifyZone (1/100) price avg = .loss ↔ (price - avg) / avg < -(1/100)) ∧
    (classifyZone (1/100) price avg = .breakEven ↔
      (-(1/100) ≤ (price - avg) / avg ∧ (price - avg) / avg ≤ 1/100)) ∧
    (∀ q : ℚ, classifyZone (1/100) q 0 = .breakEven) ∧
    classifyZone (1/100) (101/100) 1 = .breakEven ∧
    classifyZone (1/100) (101/100 + 1/100000) 1 = .profit := by
  obtain ⟨hf1, hf2, hf3, hf4, hf5, hf6, hf7⟩ :=
    zones_foldl price rows ⟨0, 0, 0, rows.length, 0, 0, 0⟩
  refine ⟨⟨?_, ?_, ?_, ?_, ?_⟩, ?_⟩
  · rw [calculateProfitLossZones, hf1]
    simp
  · rw [calculateProfitLossZones, hf2]
    simp
  · rw [calculateProfitLossZones, hf3]
    simp
  · rw [calculateProfitLossZones, hf4]
  · rw [calculateProfitLossZones, hf5]
    simp
  · have hiffs :
        (classifyZone (1/100) price avg = .profit ↔ 1/100 < (price - avg) / avg) ∧
        (classifyZone (1/100) price avg = .loss ↔ (price - avg) / avg < -(1/100)) ∧
        (classifyZone (1/100) price avg = .breakEven ↔
          (-(1/100) ≤ (price - avg) / avg ∧ (price - avg) / avg ≤ 1/100)) := by
      unfold classifyZone
      rw [if_neg havg]
      dsimp only
      refine ⟨?_, ?_, ?_⟩ <;>
        split_ifs with h1 h2 <;>
        simp [*] <;>
        (try constructor) <;>
        (try intro h3) <;>
        (try linarith)
    exact ⟨hiffs.1, hiffs.2.1, hiffs.2.2, fun q => by simp [classifyZone],
      by norm_num [classifyZone], by norm_num [classifyZone]⟩

/-- C8 witness. -/
theorem profit_loss_zone_classification_witness :
    (1 : ℚ) ≠ 0 ∧
    classifyZone (1/100) (101/100) 1 = .breakEven ∧
    classifyZone (1/100) (101/100 + 1/100000) 1 = .profit :=
  ⟨by norm_num,
    (profit_loss_zone_classification [⟨1, 10⟩] (101/100) 1 (by norm_num)).2.2.2.2.2⟩

end Monke

namespace Monke

lemma findGroupKey_mem_or_self (band : ℚ) (buckets : List Bucket) (p : ℚ) :
    (∃ b ∈ buckets, findGroupKey band buckets p = b.key) ∨
      findGroupKey band buckets p = p := by
  unfold findGroupKey
  rcases hf : buckets.find? (fun b => withinBand band p b.key) with _ | b
  · right
    rw [hf]
  · left
    refine ⟨b, List.mem_of_find?_eq_some hf, ?_⟩
    rw [hf]

lemma assignStep_update_eq (band : ℚ) (st : List (CBRow × ℚ) × List Bucket) (r : CBRow)
    (hk : st.2.any (fun b => b.key = findGroupKey band st.2 r.price) = true) :
    assignStep band st r
      = (st.1 ++ [(r, findGroupKey band st.2 r.price)],
         st.2.map (fun b => if b.key = findGroupKey band st.2 r.price then
           { b with
               totalAmount := b.totalAmount + r.amount
               holderCount := b.holderCount + r.holderCount } else b)) := by
  simp only [assignStep, insertPriceRow]
  rw [if_pos hk]

lemma assignStep_new_eq (band : ℚ) (st : List (CBRow × ℚ) × List Bucket) (r : CBRow)
    (hk : ¬ st.2.any (fun b => b.key = findGroupKey band st.2 r.price) = true) :
    assignStep band st r
      = (st.1 ++ [(r, findGroupKey band st.2 r.price)],
         st.2 ++ [⟨r.price, r.price, r.amount, r.holderCount⟩]) := by
  simp only [assignStep, insertPriceRow]
  rw [if_neg hk]

end Monke

namespace Monke

lemma assignStep_inv (band : ℚ) (st : List (CBRow × ℚ) × List Bucket) (r : CBRow)
    (h : BucketInv st) : BucketInv (assignStep band st r) := by
  obtain ⟨h1, h2, h3⟩ := h
  by_cases hk : st.2.any (fun b => b.key = findGroupKey band st.2 r.price) = true
  · rw [BucketInv, assignStep_update_eq band st r hk]
    set k := findGroupKey band st.2 r.price with hkdef
    set f := fun b : Bucket => if b.key = k then
      { b with totalAmount := b.totalAmount + r.amount, holderCount := b.holderCount + r.holderCount } else b with hfdef
    have hfkey : ∀ b : Bucket, (f b).key = b.key := by
      intro b
      by_cases hb : b.key = k <;> simp [hfdef, hb]
    have hkeys : (st.2.map f).map (·.key) = st.2.map (·.key) := by
      rw [List.map_map]
      exact List.map_congr_left (fun b _ => hfkey b)
    have hkmem : k ∈ st.2.map (·.key) := by
      obtain ⟨b, hb, hbk⟩ := List.any_eq_true.mp hk
      simp only [decide_eq_true_eq] at hbk
      exact hbk ▸ List.mem_map_of_mem _ hb
    refine ⟨?_, ?_, ?_⟩
    · rw [hkeys]
      exact h1
    · intro pk hpk
      rcases List.mem_append.mp hpk with hm | hm
      · rw [hkeys]
        exact h2 pk hm
      · simp only [List.mem_singleton] at hm
        subst hm
        rw [hkeys]
        exact hkmem
    · intro b' hb'
      obtain ⟨b, hb, rfl⟩ := List.mem_map.mp hb'
      by_cases hbk : b.key = k
      · have hfb : f b = { b with totalAmount := b.totalAmount + r.amount, holderCount := b.holderCount + r.holderCount } := by
          simp [hfdef, hbk]
        have hfilter : (st.1 ++ [(r, k)]).filter (fun pk => pk.2 = (f b).key)
            = st.1.filter (fun pk => pk.2 = b.key) ++ [(r, k)] := by
          rw [List.filter_append, hfkey b]
          congr 1
          simp [hbk]
        rw [hfilter, hfb]
        constructor
        · show b.totalAmount + r.amount = _
          rw [List.map_append, List.sum_append, ← (h3 b hb).1]
          simp
        · show b.holderCount + r.holderCount = _
          rw [List.map_append, List.sum_append, ← (h3 b hb).2]
          simp
      · have hfb : f b = b := by simp [hfdef, hbk]
        have hfilter : (st.1 ++ [(r, k)]).filter (fun pk => pk.2 = (f b).key)
            = st.1.filter (fun pk => pk.2 = b.key) := by
          rw [List.filter_append, hfkey b]
          simp [Ne.symm hbk]
        rw [hfilter, hfb]
        exact h3 b hb
  · rw [BucketInv, assignStep_new_eq band st r hk]
    have hknotmem : findGroupKey band st.2 r.price ∉ st.2.map (·.key) := by
      intro hmem
      obtain ⟨b, hb, hbk⟩ := List.mem_map.mp hmem
      exact hk (List.any_eq_true.mpr ⟨b, hb, by simp [hbk]⟩)
    have hkeq : findGroupKey band st.2 r.price = r.price := by
      rcases findGroupKey_mem_or_self band st.2 r.price with ⟨b, hb, hbk⟩ | he
      · exact absurd (hbk ▸ List.mem_map_of_mem (·.key) hb) hknotmem
      · exact he
    have hpnotmem : r.price ∉ st.2.map (·.key) := hkeq ▸ hknotmem
    refine ⟨?_, ?_, ?_⟩
    · simp only [List.map_append, List.map_cons, List.map_nil]
      rw [List.nodup_append]
      refine ⟨h1, List.nodup_singleton _, ?_⟩
      simpa [List.disjoint_singleton] using hpnotmem
    · intro pk hpk
      rcases List.mem_append.mp hpk with hm | hm
      · simp only [List.map_append, List.map_cons, List.map_nil]
        exact List.mem_append_left _ (h2 pk hm)
      · simp only [List.mem_singleton] at hm
        subst hm
        simp [hkeq]
    · intro b hbmem
      rcases List.mem_append.mp hbmem with hb | hb
      · have hbk : ¬ b.key = r.price := fun hcon => hpnotmem (hcon ▸ List.mem_map_of_mem (·.key) hb)
        have hfilter : (st.1 ++ [(r, findGroupKey band st.2 r.price)]).filter (fun pk => pk.2 = b.key)
            = st.1.filter (fun pk => pk.2 = b.key) := by
          rw [List.filter_append]
          simp [hkeq, Ne.symm hbk]
        rw [hfilter]
        exact h3 b hb
      · simp only [List.mem_singleton] at hb
        subst hb
        have hnil : st.1.filter
            (fun pk => pk.2 = (⟨r.price, r.price, r.amount, r.holderCount⟩ : Bucket).key) = [] := by
          rw [List.filter_eq_nil_iff]
          intro pk hpk
          simp only [decide_eq_true_eq]
          intro hcon
          exact hpnotmem (hcon ▸ h2 pk hpk)
        constructor
        · show r.amount = _
          rw [List.filter_append, hnil]
          simp [hkeq]
        · show r.holderCount = _
          rw [List.filter_append, hnil]
          simp [hkeq]

end Monke

namespace Monke

lemma assignFold_proj (band : ℚ) (rows : List CBRow) :
    ∀ (asn : List (CBRow × ℚ)) (bst : List Bucket),
      ((rows.foldl (assignStep band) (asn, bst)).2
        = rows.foldl (insertPriceRow band) bst) := by
  induction rows with
  | nil => intro asn bst; rfl
  | cons r rows ih =>
    intro asn bst
    rw [List.foldl_cons, List.foldl_cons]
    exact ih _ _

lemma bucketInv_start : BucketInv (([] : List (CBRow × ℚ)), ([] : List Bucket)) := by
  refine ⟨by simp, by simp, by simp⟩

lemma assignPass_inv (band : ℚ) (rows : List CBRow) :
    BucketInv (assignPass band rows) := by
  rw [assignPass]
  have haux : ∀ (rs : List CBRow) (st : List (CBRow × ℚ) × List Bucket),
      BucketInv st → BucketInv (rs.foldl (assignStep band) st) := by
    intro rs
    induction rs with
    | nil => intro st h; exact h
    | cons r rs ih =>
      intro st h
      rw [List.foldl_cons]
      exact ih _ (assignStep_inv band st r h)
  exact haux _ _ bucketInv_start

/-- C9 amended: the greedy pass assigns each grouped price row to the first
existing bucket within the band (else a new bucket); each resulting bucket's
`totalAmount` and `holderCount` are the sums of the per-price amounts and
per-price distinct-holder counts of the rows assigned to it (a holder with
open lots at several member prices is counted once per price, not once per
bucket), and the returned list is sorted by `totalAmount` descending. -/
theorem price_clustering_greedy_totals (lots : List CBLot) (band : ℚ) :
    (getHolderPriceLevels lots band).Perm (assignPass band (sqlPriceRows lots)).2 ∧
    (∀ b ∈ getHolderPriceLevels lots band,
      b.totalAmount = (((assignPass band (sqlPriceRows lots)).1.filter
          (fun pk => pk.2 = b.key)).map (·.1.amount)).sum ∧
      b.holderCount = (((assignPass band (sqlPriceRows lots)).1.filter
          (fun pk => pk.2 = b.key)).map (·.1.holderCount)).sum) ∧
    List.Pairwise (fun a b => b.totalAmount ≤ a.totalAmount)
      (getHolderPriceLevels lots band) := by
  have hproj : (assignPass band (sqlPriceRows lots)).2
      = (sqlPriceRows lots).foldl (insertPriceRow band) [] :=
    assignFold_proj band (sqlPriceRows lots) [] []
  have hperm : (getHolderPriceLevels lots band).Perm
      ((sqlPriceRows lots).foldl (insertPriceRow band) []) :=
    List.mergeSort_perm _ _
  have hinv := assignPass_inv band (sqlPriceRows lots)
  refine ⟨?_, ?_, ?_⟩
  · rw [hproj]
    exact hperm
  · intro b hb
    have hbmem : b ∈ (assignPass band (sqlPriceRows lots)).2 := by
      rw [hproj]
      exact hperm.mem_iff.mp hb
    exact hinv.2.2 b hbmem
  · have hs := @List.sorted_mergeSort Bucket
      (fun a b => decide (b.totalAmount ≤ a.totalAmount))
      (by
        intro a b c hab hbc
        simp only [decide_eq_true_eq] at hab hbc ⊢
        exact le_trans hbc hab)
      (by
        intro a b
        simp only [Bool.or_eq_true, decide_eq_true_eq]
        exact le_total b.totalAmount a.totalAmount)
      ((sqlPriceRows lots).foldl (insertPriceRow band) [])
    have : getHolderPriceLevels lots band
        = ((sqlPriceRows lots).foldl (insertPriceRow band) []).mergeSort
            (fun a b => decide (b.totalAmount ≤ a.totalAmount)) := rfl
    rw [this]
    exact hs.imp (fun hab => decide_eq_true_eq.mp hab)

/-- C9 counterexample: one holder with open lots at prices 100 and 101
(within the 5% band) yields a single bucket whose `holderCount` is 2, while
the number of distinct holders holding lots in that bucket is 1 — the
bucket's holder count is not the distinct-holder count of the bucket. -/
theorem price_clustering_double_counts_holder :
    getHolderPriceLevels [⟨0, 100, 10⟩, ⟨0, 101, 10⟩] 5 = [⟨100, 100, 20, 2⟩] ∧
    specDistinctHolderCount [⟨0, 100, 10⟩, ⟨0, 101, 10⟩] 5 100 = 1 ∧
    (2 : ℕ) ≠ 1 := by
  refine ⟨?_, ?_, by norm_num⟩
  · norm_num [getHolderPriceLevels, sqlPriceRows, distinctPrices, rowForPrice,
      insertPriceRow, findGroupKey, withinBand, List.mergeSort, List.dedup]
  · norm_num [specDistinctHolderCount, assignPass, assignStep, sqlPriceRows,
      distinctPrices, rowForPrice, insertPriceRow, findGroupKey, withinBand,
      List.mergeSort, List.dedup]

/-- C9 witness: the single bucket of the two-price example satisfies the
amended totals characterization. -/
theorem price_clustering_greedy_totals_witness :
    (⟨100, 100, 20, 2⟩ : Bucket) ∈ getHolderPriceLevels [⟨0, 100, 10⟩, ⟨0, 101, 10⟩] 5 ∧
    (⟨100, 100, 20, 2⟩ : Bucket).holderCount
      = (((assignPass 5 (sqlPriceRows [⟨0, 100, 10⟩, ⟨0, 101, 10⟩])).1.filter
          (fun pk => pk.2 = (⟨100, 100, 20, 2⟩ : Bucket).key)).map
            (·.1.holderCount)).sum := by
  have hmem : (⟨100, 100, 20, 2⟩ : Bucket) ∈
      getHolderPriceLevels [⟨0, 100, 10⟩, ⟨0, 101, 10⟩] 5 := by
    norm_num [getHolderPriceLevels, sqlPriceRows, distinctPrices, rowForPrice,
      insertPriceRow, findGroupKey, withinBand, List.mergeSort, List.dedup]
  exact ⟨hmem,
    ((price_clustering_greedy_totals [⟨0, 100, 10⟩, ⟨0, 101, 10⟩] 5).2.1
      ⟨100, 100, 20, 2⟩ hmem).2⟩

end Monke
